import Mathlib

/-!
Verification of the `combo_gen` parallel combination generator (Rust).

The development shallowly embeds the engine of the repository:

* `src/Rust/combo_gen/src/main.rs`       (the `combo_gen` variant)
* `src/Rust/v2/src/combo_gen_fixed.rs`   (the `fixed` variant)
* `src/Rust/v2/src/combo_gen_ultra.rs`   (the `ultra` variant)

Machine integers (`u64`, `u32`, `u128`) are modelled as `Nat`; wherever the
Rust code can actually wrap (the `wrapping_add(1)` on a `u32` digit inside
`odometer_increment`) the model keeps the explicit `% 2^32`.  Byte values are
modelled as `Nat` (every charset byte is `< 256`, which no claim depends on).
-/

namespace ComboGen

/-- `u64::MAX` as a natural number. -/
def U64_MAX : Nat := 18446744073709551615

/-- `2^32`, the modulus of Rust `u32` arithmetic. -/
def U32_MOD : Nat := 4294967296

/-- The default charset: the 94 printable ASCII bytes `33..=126`
(`default_charset` in all three variants). -/
def default_charset : List Nat := List.range' 33 94

/-- Loop body of `pow_u64` (`main.rs` lines 24-33): start from `r = 1` (as
`u128`), multiply by `base` once per remaining exponent step, and return
`None` as soon as the accumulator exceeds `u64::MAX`. -/
def pow_u64_loop (base : Nat) : Nat → Nat → Option Nat
  | 0, r => some r
  | e + 1, r =>
      let r' := r * base
      if U64_MAX < r' then none else pow_u64_loop base e r'

/-- `pow_u64(base, exp)` from `main.rs` / `combo_gen_fixed.rs`: compute
`base^exp` in `u128`, failing with `None` when the result no longer fits in a
`u64`.  (`combo_gen_ultra.rs` first tries `checked_pow` and falls back to the
same loop; both agree with this function.) -/
def pow_u64 (base : Nat) (exp : Nat) : Option Nat :=
  pow_u64_loop base exp 1

/-- `index_to_digits(index, base, len)` (`main.rs` lines 37-45): fill a digit
vector of width `len` from the last position backwards with `index % base`,
dividing `index` by `base` at each step.  Position `len-1` holds
`index % base`, positions before it the digits of `index / base`. -/
def index_to_digits (index base : Nat) : Nat → List Nat
  | 0 => []
  | l + 1 => index_to_digits (index / base) base l ++ [index % base]

/-- Mixed-radix evaluation of a digit vector, most-significant digit first.
The source has no `from_digits`; this is the spec's re-encoding direction
(`index = from_digits(digit_vector)`), written from the spec's words. -/
def from_digits (base : Nat) (ds : List Nat) : Nat :=
  ds.foldl (fun acc d => acc * base + d) 0

/-- `odometer_increment(digits, base)` (`main.rs` lines 49-63,
`combo_gen_fixed.rs` lines 44-57): scan from the last (least-significant)
digit towards the first, adding 1 with `u32` wrap-around; a digit that stays
below `base` stops the carry (result `false`), otherwise it is reset to `0`
and the carry moves left; a carry past the first digit wraps (result `true`).
The recursion processes the head after its (less significant) tail. -/
def odometer_increment (digits : List Nat) (base : Nat) : List Nat × Bool :=
  match digits with
  | [] => ([], true)
  | d :: ds =>
      match odometer_increment ds base with
      | (ds', false) => (d :: ds', false)
      | (ds', true) =>
          let v := (d + 1) % U32_MOD
          if v < base then (v :: ds', false) else (0 :: ds', true)

/-! ### Basic codec lemmas -/

theorem index_to_digits_length (index base : Nat) :
    ∀ len, (index_to_digits index base len).length = len := by
  intro len
  induction len generalizing index with
  | zero => rfl
  | succ l ih => simp [index_to_digits, ih]

theorem index_to_digits_lt (base : Nat) (hb : 0 < base) :
    ∀ len index, ∀ d ∈ index_to_digits index base len, d < base := by
  intro len
  induction len with
  | zero => intro index d hd; simp [index_to_digits] at hd
  | succ l ih =>
      intro index d hd
      simp only [index_to_digits, List.mem_append, List.mem_singleton] at hd
      rcases hd with hd | hd
      · exact ih _ d hd
      · subst hd; exact Nat.mod_lt _ hb

theorem from_digits_append_last (base : Nat) (ds : List Nat) (d : Nat) :
    from_digits base (ds ++ [d]) = from_digits base ds * base + d := by
  simp [from_digits]

/-- Decode/encode round-trip on the list of digits. -/
theorem from_digits_index_to_digits (base : Nat) (hb : 0 < base) :
    ∀ len index, index < base ^ len →
      from_digits base (index_to_digits index base len) = index := by
  intro len
  induction len with
  | zero =>
      intro index h
      simp [pow_zero] at h
      simp [h, index_to_digits, from_digits]
  | succ l ih =>
      intro index h
      have hdiv : index / base < base ^ l := by
        rw [Nat.div_lt_iff_lt_mul hb, ← pow_succ]
        exact h
      simp only [index_to_digits, from_digits_append_last, ih _ hdiv]
      exact Nat.div_add_mod' index base

theorem index_to_digits_zero (base : Nat) :
    ∀ len, index_to_digits 0 base len = List.replicate len 0 := by
  intro len
  induction len with
  | zero => rfl
  | succ l ih =>
      simp [index_to_digits, Nat.zero_div, Nat.zero_mod, ih,
        List.replicate_succ']

theorem index_to_digits_max (base : Nat) (hb : 2 ≤ base) :
    ∀ len, index_to_digits (base ^ len - 1) base len =
      List.replicate len (base - 1) := by
  intro len
  have hb1 : 0 < base := lt_of_lt_of_le (by norm_num) hb
  induction len with
  | zero => rfl
  | succ l ih =>
      have hpow : 0 < base ^ l := Nat.pos_pow_of_pos l hb1
      have hdecomp : base ^ (l + 1) - 1 = base * (base ^ l - 1) + (base - 1) := by
        have e1 : base ^ (l + 1) = base ^ l * base := pow_succ base l
        have e2 : base * (base ^ l - 1) + base = base * base ^ l := by
          calc base * (base ^ l - 1) + base
              = base * (base ^ l - 1 + 1) := by ring
            _ = base * base ^ l := by rw [Nat.sub_add_cancel hpow]
        have e3 : base * base ^ l = base ^ l * base := Nat.mul_comm _ _
        omega
      have hmod : (base ^ (l + 1) - 1) % base = base - 1 := by
        rw [hdecomp, Nat.mul_add_mod]
        exact Nat.mod_eq_of_lt (by omega)
      have hdiv : (base ^ (l + 1) - 1) / base = base ^ l - 1 := by
        rw [hdecomp, Nat.mul_add_div hb1]
        have e4 : (base - 1) / base = 0 := Nat.div_eq_of_lt (by omega)
        rw [e4, Nat.add_zero]
      simp [index_to_digits, hmod, hdiv, ih, List.replicate_succ']

/-- C1: Codec round-trip.  For every base `≥ 2`, every length, and every index
in `[0, base^length)`, decoding with `index_to_digits` and re-encoding the
digit vector by mixed-radix evaluation (most-significant digit first,
`from_digits`) returns the index; index `0` decodes to the all-zero vector
and index `base^length - 1` to the all-max-digit vector. -/
theorem codec_round_trip (base len index : Nat) (hb : 2 ≤ base)
    (hidx : index < base ^ len) :
    from_digits base (index_to_digits index base len) = index ∧
    index_to_digits 0 base len = List.replicate len 0 ∧
    index_to_digits (base ^ len - 1) base len = List.replicate len (base - 1) := by
  have hb1 : 0 < base := lt_of_lt_of_le (by norm_num) hb
  exact ⟨from_digits_index_to_digits base hb1 len index hidx,
         index_to_digits_zero base len,
         index_to_digits_max base hb len⟩

/-- Witness for C1 at `base = 3`, `len = 2`, `index = 5`. -/
theorem codec_round_trip_witness :
    from_digits 3 (index_to_digits 5 3 2) = 5 ∧
    index_to_digits 0 3 2 = List.replicate 2 0 ∧
    index_to_digits (3 ^ 2 - 1) 3 2 = List.replicate 2 (3 - 1) :=
  codec_round_trip 3 2 5 (by decide) (by decide)

/-! ### Odometer lemmas -/

/-- How `odometer_increment` acts on a vector split as `prefix ++ [last]`:
the last digit is least significant, so it is tried first; when it carries,
the increment recurses into the prefix and the last digit resets to `0`. -/
theorem odometer_increment_append_last (base : Nat) (hb32 : base < U32_MOD)
    (xs : List Nat) (d : Nat) (hd : d < base) :
    odometer_increment (xs ++ [d]) base =
      if d + 1 < base then (xs ++ [d + 1], false)
      else ((odometer_increment xs base).1 ++ [0],
            (odometer_increment xs base).2) := by
  have hv : (d + 1) % U32_MOD = d + 1 := Nat.mod_eq_of_lt (by omega)
  induction xs with
  | nil =>
      by_cases h : d + 1 < base <;>
        simp [odometer_increment, hv, h]
  | cons x xs ih =>
      by_cases h : d + 1 < base
      · rw [if_pos h, List.cons_append, List.cons_append]
        simp only [odometer_increment]
        rw [ih, if_pos h]
      · rw [if_neg h, List.cons_append]
        simp only [odometer_increment]
        rw [ih, if_neg h]
        rcases hrec : odometer_increment xs base with ⟨ds', w⟩
        cases w
        · rfl
        · by_cases hx : (x + 1) % U32_MOD < base <;> simp [hx]

/-- Single-step correspondence between the odometer and `+1` on indices:
below `base^len - 1` an increment is exact and reports no wrap, and at
`base^len - 1` it yields the all-zero vector and reports a wrap. -/
theorem odometer_increment_step (base : Nat) (hb : 2 ≤ base)
    (hb32 : base < U32_MOD) :
    ∀ len,
      (∀ i, i + 1 < base ^ len →
        odometer_increment (index_to_digits i base len) base =
          (index_to_digits (i + 1) base len, false)) ∧
      odometer_increment (index_to_digits (base ^ len - 1) base len) base =
        (List.replicate len 0, true) := by
  have hb1 : 0 < base := by omega
  intro len
  induction len with
  | zero =>
      refine ⟨fun i hi => absurd hi (by simp), ?_⟩
      simp [index_to_digits, odometer_increment]
  | succ l ih =>
      have hpow : 0 < base ^ l := Nat.pos_pow_of_pos l hb1
      have hmax : ∀ i : Nat, i % base = base - 1 → i / base = base ^ l - 1 →
          i = base ^ (l + 1) - 1 := by
        intro i h1 h2
        have e0 := Nat.div_add_mod i base
        have e1 : base ^ (l + 1) = base * base ^ l := by
          rw [pow_succ, Nat.mul_comm]
        have e2 : base * (i / base) = base * (base ^ l - 1) := by rw [h2]
        have e3 : base * (base ^ l - 1) + base = base * base ^ l := by
          calc base * (base ^ l - 1) + base
              = base * (base ^ l - 1 + 1) := by ring
            _ = base * base ^ l := by rw [Nat.sub_add_cancel hpow]
        omega
      constructor
      · intro i hi
        simp only [index_to_digits]
        rw [odometer_increment_append_last base hb32 _ _
          (Nat.mod_lt _ hb1)]
        by_cases hcarry : i % base + 1 < base
        · rw [if_pos hcarry]
          have hm : (i + 1) % base = i % base + 1 := by
            conv_lhs => rw [← Nat.div_add_mod i base]
            rw [Nat.add_assoc, Nat.mul_add_mod]
            exact Nat.mod_eq_of_lt hcarry
          have hd : (i + 1) / base = i / base := by
            conv_lhs => rw [← Nat.div_add_mod i base]
            rw [Nat.add_assoc, Nat.mul_add_div hb1,
              Nat.div_eq_of_lt hcarry, Nat.add_zero]
          rw [hm, hd]
        · rw [if_neg hcarry]
          have hmod : i % base = base - 1 := by
            have := Nat.mod_lt i hb1
            omega
          have hne : i ≠ base ^ (l + 1) - 1 := by
            intro h; rw [h] at hi; omega
          have hdivlt : i / base + 1 < base ^ l := by
            have e0 := Nat.div_add_mod i base
            have e1 : base ^ (l + 1) = base * base ^ l := by
              rw [pow_succ, Nat.mul_comm]
            have hdle : i / base + 1 ≤ base ^ l := by
              by_contra hcon
              push_neg at hcon
              have : base * base ^ l ≤ base * (i / base) := by
                exact Nat.mul_le_mul_left base (by omega)
              omega
            rcases Nat.lt_or_ge (i / base + 1) (base ^ l) with h | h
            · exact h
            · exfalso
              have heq : i / base = base ^ l - 1 := by omega
              exact hne (hmax i hmod heq)
          rw [(ih.1 (i / base) hdivlt)]
          have hm : (i + 1) % base = 0 := by
            conv_lhs => rw [← Nat.div_add_mod i base, hmod]
            have : base * (i / base) + (base - 1) + 1
                = base * (i / base + 1) := by
              have : base - 1 + 1 = base := Nat.sub_add_cancel (by omega)
              calc base * (i / base) + (base - 1) + 1
                  = base * (i / base) + (base - 1 + 1) := by omega
                _ = base * (i / base) + base := by rw [this]
                _ = base * (i / base + 1) := by ring
            rw [this, Nat.mul_mod_right]
          have hd : (i + 1) / base = i / base + 1 := by
            conv_lhs => rw [← Nat.div_add_mod i base, hmod]
            have : base * (i / base) + (base - 1) + 1
                = base * (i / base + 1) := by
              have h5 : base - 1 + 1 = base := Nat.sub_add_cancel (by omega)
              calc base * (i / base) + (base - 1) + 1
                  = base * (i / base) + (base - 1 + 1) := by omega
                _ = base * (i / base) + base := by rw [h5]
                _ = base * (i / base + 1) := by ring
            rw [this, Nat.mul_div_cancel_left _ hb1]
          rw [hm, hd]
      · simp only [index_to_digits]
        have hmod : (base ^ (l + 1) - 1) % base = base - 1 := by
          have := index_to_digits_max base hb (l + 1)
          have hlast : base ^ (l + 1) - 1
              = base * (base ^ l - 1) + (base - 1) := by
            have e1 : base ^ (l + 1) = base * base ^ l := by
              rw [pow_succ, Nat.mul_comm]
            have e3 : base * (base ^ l - 1) + base = base * base ^ l := by
              calc base * (base ^ l - 1) + base
                  = base * (base ^ l - 1 + 1) := by ring
                _ = base * base ^ l := by rw [Nat.sub_add_cancel hpow]
            omega
          rw [hlast, Nat.mul_add_mod]
          exact Nat.mod_eq_of_lt (by omega)
        have hdiv : (base ^ (l + 1) - 1) / base = base ^ l - 1 := by
          have hlast : base ^ (l + 1) - 1
              = base * (base ^ l - 1) + (base - 1) := by
            have e1 : base ^ (l + 1) = base * base ^ l := by
              rw [pow_succ, Nat.mul_comm]
            have e3 : base * (base ^ l - 1) + base = base * base ^ l := by
              calc base * (base ^ l - 1) + base
                  = base * (base ^ l - 1 + 1) := by ring
                _ = base * base ^ l := by rw [Nat.sub_add_cancel hpow]
            omega
          rw [hlast, Nat.mul_add_div hb1,
            Nat.div_eq_of_lt (by omega), Nat.add_zero]
        rw [odometer_increment_append_last base hb32 _ _
          (Nat.mod_lt _ hb1), hmod, hdiv]
        rw [if_neg (by omega)]
        rw [ih.2]
        simp [List.replicate_succ']

/-- `k` successive calls of `odometer_increment`, starting from `digits`,
returning the final digit vector together with whether any of the `k` calls
reported a wrap. -/
def odometer_run (base : Nat) : List Nat → Nat → List Nat × Bool
  | ds, 0 => (ds, false)
  | ds, k + 1 =>
      let step := odometer_increment ds base
      let rest := odometer_run base step.1 k
      (rest.1, step.2 || rest.2)

/-- C2: Odometer/addition correspondence.  Starting from
`index_to_digits s`, `k` odometer increments (with `s + k < base^len`) land
exactly on `index_to_digits (s + k)` with no call reporting a wrap; one
further increment from the all-max vector (index `base^len - 1`) yields the
all-zero vector and reports the wrap.  `base < 2^32` reflects the `u32` type
of the `base` argument of `odometer_increment`. -/
theorem odometer_correspondence (base len s k : Nat) (hb : 2 ≤ base)
    (hb32 : base < U32_MOD) (hsk : s + k < base ^ len) :
    odometer_run base (index_to_digits s base len) k =
      (index_to_digits (s + k) base len, false) ∧
    odometer_increment (index_to_digits (base ^ len - 1) base len) base =
      (List.replicate len 0, true) := by
  refine ⟨?_, (odometer_increment_step base hb hb32 len).2⟩
  induction k generalizing s with
  | zero => simp [odometer_run]
  | succ n ih =>
      have h1 : s + 1 < base ^ len := by omega
      have hstep := (odometer_increment_step base hb hb32 len).1 s h1
      have hrest := ih (s + 1) (by omega)
      simp only [odometer_run, hstep, hrest]
      have : s + 1 + n = s + (n + 1) := by omega
      simp [this]

/-- Witness for C2 at `base = 2`, `len = 3`, `s = 2`, `k = 4`. -/
theorem odometer_correspondence_witness :
    odometer_run 2 (index_to_digits 2 2 3) 4 =
      (index_to_digits 6 2 3, false) ∧
    odometer_increment (index_to_digits (2 ^ 3 - 1) 2 3) 2 =
      (List.replicate 3 0, true) :=
  odometer_correspondence 2 3 2 4 (by decide) (by decide) (by decide)

/-- The digit vector after an odometer increment stays below `base`. -/
theorem odometer_increment_preserves_lt (base : Nat) (hb : 0 < base) :
    ∀ ds : List Nat, (∀ d ∈ ds, d < base) →
      ∀ d ∈ (odometer_increment ds base).1, d < base := by
  intro ds
  induction ds with
  | nil => intro _ d hd; simp [odometer_increment] at hd
  | cons x xs ih =>
      intro hin d hd
      have hx : x < base := hin x (by simp)
      have hxs : ∀ d ∈ xs, d < base := fun d hd => hin d (by simp [hd])
      simp only [odometer_increment] at hd
      rcases hrec : odometer_increment xs base with ⟨ds', w⟩
      rw [hrec] at hd
      have hds' : ∀ d ∈ ds', d < base := by
        intro d hd
        have := ih hxs d
        rw [hrec] at this
        exact this hd
      cases w with
      | false =>
          simp only [List.mem_cons] at hd
          rcases hd with h | h
          · exact h ▸ hx
          · exact hds' d h
      | true =>
          by_cases hv : (x + 1) % U32_MOD < base
          · simp only [hv, if_true, List.mem_cons] at hd
            rcases hd with h | h
            · exact h ▸ hv
            · exact hds' d h
          · simp only [hv, if_false, List.mem_cons] at hd
            rcases hd with h | h
            · exact h ▸ hb
            · exact hds' d h

/-- C10 (implicit): digit-range invariant.  For every non-empty charset,
every digit produced by `index_to_digits` is strictly below
`base = charset.length`, `odometer_increment` preserves that bound, and hence
every rendering lookup `charset[d]` is in bounds. -/
theorem digit_range_invariant (charset : List Nat) (len index : Nat)
    (hc : charset ≠ []) (hidx : index < charset.length ^ len) :
    (∀ d ∈ index_to_digits index charset.length len, d < charset.length) ∧
    (∀ ds : List Nat, (∀ d ∈ ds, d < charset.length) →
      ∀ d ∈ (odometer_increment ds charset.length).1, d < charset.length) := by
  have hb : 0 < charset.length := List.length_pos.mpr hc
  exact ⟨index_to_digits_lt charset.length hb len index,
         odometer_increment_preserves_lt charset.length hb⟩

/-- Witness for C10 with charset `[10, 20]`, `len = 3`, `index = 5`. -/
theorem digit_range_invariant_witness :
    (∀ d ∈ index_to_digits 5 (List.length [10, 20]) 3,
        d < List.length [10, 20]) ∧
    (∀ ds : List Nat, (∀ d ∈ ds, d < List.length [10, 20]) →
      ∀ d ∈ (odometer_increment ds (List.length [10, 20])).1,
        d < List.length [10, 20]) :=
  digit_range_invariant [10, 20] 3 5 (by decide) (by decide)

/-! ### `pow_u64` correctness -/

theorem pow_u64_loop_spec (base : Nat) (hb : 1 ≤ base) :
    ∀ (e r : Nat), r ≤ U64_MAX →
      pow_u64_loop base e r =
        if r * base ^ e ≤ U64_MAX then some (r * base ^ e) else none := by
  intro e
  induction e with
  | zero =>
      intro r hr
      simp [pow_u64_loop, hr]
  | succ n ih =>
      intro r hr
      by_cases h : U64_MAX < r * base
      · have h1 : 1 ≤ base ^ n := Nat.one_le_pow n base (by omega)
        have h2 : r * base ≤ r * base * base ^ n :=
          Nat.le_mul_of_pos_right _ (by omega)
        have h3 : r * base * base ^ n = r * base ^ (n + 1) := by ring
        have hge : ¬ r * base ^ (n + 1) ≤ U64_MAX := by omega
        simp only [pow_u64_loop]
        rw [if_pos h, if_neg hge]
      · push_neg at h
        have hrec := ih (r * base) h
        have harr : r * base * base ^ n = r * base ^ (n + 1) := by ring
        rw [harr] at hrec
        simp only [pow_u64_loop, if_neg (by omega : ¬U64_MAX < r * base)]
        exact hrec

/-- `Phase` abstracts the control flow of `main` in `combo_gen/src/main.rs`
up to and including worker spawning:
`configPanic` is the `panic!` on `base < 2` (non-zero exit, nothing created);
`overflowExit` is the `std::process::exit(1)` on `pow_u64 = None` (before
`File::create`); `nothingToDo` is the early `return` on `--limit 0` (exit
status 0, before `File::create`); `run` records that the output file was
created and which ranges the spawned workers received. -/
inductive Phase where
  | configPanic : Phase
  | overflowExit : Phase
  | nothingToDo : Phase
  | run : Nat → List (Nat × Nat) → Phase
  deriving DecidableEq, Repr

/-- Loop body of the partitioning `for t in 0..threads` (`main.rs` lines
184-191, `combo_gen_fixed.rs` lines 196-200): each remaining iteration takes
`per_thread` elements plus one extra while `remainder > 0`, breaks when a
count of zero comes up, and advances the running start index. -/
def partition_loop (per_thread : Nat) : Nat → Nat → Nat → List (Nat × Nat)
  | _, _, 0 => []
  | remainder, cur, t + 1 =>
      let extra := if 0 < remainder then 1 else 0
      let count := per_thread + extra
      if count = 0 then []
      else (cur, count) :: partition_loop per_thread (remainder - extra)
        (cur + count) t

/-- The partitioning computation shared by all variants (`main.rs` lines
163-191, `combo_gen_fixed.rs` lines 165-200): `per_thread = remaining /
threads`, `remainder = remaining % threads`; when `per_thread = 0` the thread
count is reduced to `remaining` with one element each; ranges start at
`resume_offset` (always `0` in `main.rs`). -/
def partition (remaining threads resume_offset : Nat) : List (Nat × Nat) :=
  let per_thread := remaining / threads
  let remainder := remaining % threads
  if per_thread = 0 then
    partition_loop 1 0 resume_offset remaining
  else
    partition_loop per_thread remainder resume_offset threads

/-- The pre-spawn pipeline of `main` in `combo_gen/src/main.rs` (lines
115-191), in source order: charset-size check (`panic!`), `pow_u64` overflow
check (`exit(1)`), the `--limit 0` early return, then output-file creation
and partitioning. -/
def main_setup (charset : List Nat) (length : Nat) (limit : Option Nat)
    (threads : Nat) : Phase :=
  let base := charset.length
  if base < 2 then .configPanic
  else
    match pow_u64 base length with
    | none => .overflowExit
    | some total =>
        match limit with
        | some 0 => .nothingToDo
        | some l =>
            let effective_total := if total < l then total else l
            .run effective_total (partition effective_total threads 0)
        | none => .run total (partition total threads 0)

theorem pow_u64_spec (base exp : Nat) (hb : 1 ≤ base) :
    (base ^ exp ≤ U64_MAX → pow_u64 base exp = some (base ^ exp)) ∧
    (U64_MAX < base ^ exp → pow_u64 base exp = none) := by
  have h := pow_u64_loop_spec base hb exp 1 (by simp [U64_MAX])
  rw [Nat.one_mul] at h
  refine ⟨fun hle => ?_, fun hgt => ?_⟩
  · rw [pow_u64, h, if_pos hle]
  · rw [pow_u64, h, if_neg (by omega)]

/-- C4: Overflow detection.  `pow_u64` returns `some (base^exp)` exactly when
`base^exp` fits in a `u64` and `none` otherwise (for `base ≥ 1`); and in the
spec's scenario — the default 94-byte charset with `length = 10` — `main`
exits through the overflow branch, before any output file is created. -/
theorem pow_u64_correct (base exp : Nat) (hb : 1 ≤ base) :
    (base ^ exp ≤ U64_MAX → pow_u64 base exp = some (base ^ exp)) ∧
    (U64_MAX < base ^ exp → pow_u64 base exp = none) ∧
    main_setup default_charset 10 none 8 = Phase.overflowExit := by
  refine ⟨(pow_u64_spec base exp hb).1, (pow_u64_spec base exp hb).2, rfl⟩

/-- Witness for C4 at `base = 94`, `exp = 9` (fits) and `exp = 10`
(overflows). -/
theorem pow_u64_correct_witness :
    pow_u64 94 9 = some (94 ^ 9) ∧ pow_u64 94 10 = none :=
  ⟨(pow_u64_correct 94 9 (by decide)).1 (by decide),
   (pow_u64_correct 94 10 (by decide)).2.1 (by decide)⟩

/-! ### Partition lemmas -/

/-- A list of ranges `(start, count)` is chained from `a` when each range
starts exactly where the previous one ended. -/
def chained : Nat → List (Nat × Nat) → Prop
  | _, [] => True
  | a, pr :: rest => pr.1 = a ∧ chained (a + pr.2) rest

theorem partition_loop_chained (p : Nat) :
    ∀ (t rem cur : Nat), chained cur (partition_loop p rem cur t) := by
  intro t
  induction t with
  | zero => intro rem cur; trivial
  | succ n ih =>
      intro rem cur
      simp only [partition_loop]
      by_cases h : p + (if 0 < rem then 1 else 0) = 0
      · simp [h, chained]
      · simp only [if_neg h]
        exact ⟨rfl, ih _ _⟩

theorem chained_head : ∀ (P : List (Nat × Nat)) (a : Nat), chained a P →
    ∀ (h : 0 < P.length), (P.get ⟨0, h⟩).1 = a := by
  intro P a hc h
  cases P with
  | nil => simp at h
  | cons pr rest => exact hc.1

theorem chained_start_le : ∀ (P : List (Nat × Nat)) (a : Nat), chained a P →
    ∀ j (hj : j < P.length), a ≤ (P.get ⟨j, hj⟩).1 := by
  intro P
  induction P with
  | nil => intro a _ j hj; simp at hj
  | cons pr rest ih =>
      intro a hc j hj
      cases j with
      | zero => exact le_of_eq hc.1.symm
      | succ m =>
          have := ih (a + pr.2) hc.2 m (by simpa using hj)
          calc a ≤ a + pr.2 := Nat.le_add_right _ _
            _ ≤ _ := this

theorem chained_separated : ∀ (P : List (Nat × Nat)) (a : Nat), chained a P →
    ∀ i j (hi : i < P.length) (hj : j < P.length), i < j →
      (P.get ⟨i, hi⟩).1 + (P.get ⟨i, hi⟩).2 ≤ (P.get ⟨j, hj⟩).1 := by
  intro P
  induction P with
  | nil => intro a _ i j hi; simp at hi
  | cons pr rest ih =>
      intro a hc i j hi hj hij
      cases j with
      | zero => omega
      | succ m =>
          cases i with
          | zero =>
              have hle := chained_start_le rest (a + pr.2) hc.2 m
                (by simpa using hj)
              simpa [hc.1] using hle
          | succ k =>
              exact ih (a + pr.2) hc.2 k m (by simpa using hi)
                (by simpa using hj) (by omega)

theorem chained_step : ∀ (P : List (Nat × Nat)) (a : Nat), chained a P →
    ∀ i (hi : i < P.length) (hi1 : i + 1 < P.length),
      (P.get ⟨i + 1, hi1⟩).1 = (P.get ⟨i, hi⟩).1 + (P.get ⟨i, hi⟩).2 := by
  intro P
  induction P with
  | nil => intro a _ i hi; simp at hi
  | cons pr rest ih =>
      intro a hc i hi hi1
      cases i with
      | zero =>
          have h0 : 0 < rest.length := by simpa using hi1
          have := chained_head rest (a + pr.2) hc.2 h0
          simpa [hc.1] using this
      | succ k =>
          exact ih (a + pr.2) hc.2 k (by simpa using hi) (by simpa using hi1)

theorem chained_cover : ∀ (P : List (Nat × Nat)) (a : Nat), chained a P →
    ∀ x, (∃ pr ∈ P, pr.1 ≤ x ∧ x < pr.1 + pr.2) ↔
      a ≤ x ∧ x < a + (P.map Prod.snd).sum := by
  intro P
  induction P with
  | nil => intro a _ x; simp
  | cons pr rest ih =>
      intro a hc x
      have hrec := ih (a + pr.2) hc.2 x
      constructor
      · rintro ⟨q, hq, hq1, hq2⟩
        rcases List.mem_cons.mp hq with h | h
        · subst h
          rw [hc.1] at hq1 hq2
          simp only [List.map_cons, List.sum_cons]
          omega
        · have := hrec.mp ⟨q, h, hq1, hq2⟩
          simp only [List.map_cons, List.sum_cons]
          omega
      · intro hx
        simp only [List.map_cons, List.sum_cons] at hx
        by_cases h : x < a + pr.2
        · exact ⟨pr, List.mem_cons_self _ _, by rw [hc.1]; omega,
            by rw [hc.1]; omega⟩
        · obtain ⟨q, hq, hq1, hq2⟩ := hrec.mpr (by omega)
          exact ⟨q, List.mem_cons_of_mem _ hq, hq1, hq2⟩

theorem partition_loop_eq (p : Nat) (hp : 1 ≤ p) :
    ∀ (t rem cur : Nat),
      partition_loop p rem cur t =
        (List.range t).map
          (fun i => (cur + i * p + min i rem,
                     p + if i < rem then 1 else 0)) := by
  intro t
  induction t with
  | zero => intro rem cur; rfl
  | succ n ih =>
      intro rem cur
      rw [List.range_succ_eq_map, List.map_cons, List.map_map]
      by_cases hrem : 0 < rem
      · have e1 : (if 0 < rem then 1 else 0) = 1 := if_pos hrem
        simp only [partition_loop, e1]
        rw [if_neg (by omega : ¬ p + 1 = 0), ih]
        congr 1
        · simp [hrem]
        · apply List.map_congr_left
          intro i _
          simp only [Function.comp]
          simp only [Prod.mk.injEq]
          have hs : Nat.succ i * p = i * p + p := Nat.succ_mul i p
          refine ⟨by omega, ?_⟩
          by_cases h1 : i < rem - 1 <;> by_cases h2 : i + 1 < rem <;>
            simp [h1, h2] <;> omega
      · have e1 : (if 0 < rem then 1 else 0) = 0 := if_neg hrem
        have e0 : rem = 0 := by omega
        subst e0
        simp only [partition_loop, e1]
        rw [if_neg (by omega : ¬ p + 0 = 0), ih]
        congr 1
        · simp
        · apply List.map_congr_left
          intro i _
          simp only [Function.comp]
          simp only [Prod.mk.injEq]
          have hs : Nat.succ i * p = i * p + p := Nat.succ_mul i p
          exact ⟨by omega, by simp⟩

theorem sum_counts (p rr : Nat) :
    ∀ N, ((List.range N).map
        (fun i => p + if i < rr then 1 else 0)).sum = N * p + min N rr := by
  intro N
  induction N with
  | zero => simp
  | succ n ih =>
      rw [List.range_succ, List.map_append, List.sum_append, ih]
      have hs : (n + 1) * p = n * p + p := Nat.succ_mul n p
      by_cases h : n < rr <;> simp [h] <;> omega

theorem get_range_map (f : Nat → Nat × Nat) (N i : Nat)
    (hi : i < ((List.range N).map f).length) :
    ((List.range N).map f).get ⟨i, hi⟩ = f i := by
  simp

theorem partition_char (remaining workers resume_offset : Nat)
    (hw : 1 ≤ workers) (hr : 1 ≤ remaining) :
    ∃ N p rr, partition remaining workers resume_offset =
        (List.range N).map
          (fun i => (resume_offset + i * p + min i rr,
                     p + if i < rr then 1 else 0)) ∧
      1 ≤ p ∧ N * p + min N rr = remaining ∧ N ≤ remaining ∧
      (workers ≤ remaining →
        N = workers ∧ p = remaining / workers ∧ rr = remaining % workers) ∧
      (remaining < workers → N = remaining ∧ p = 1 ∧ rr = 0) := by
  rcases Nat.lt_or_ge remaining workers with hsmall | hbig
  · have hdiv : remaining / workers = 0 := Nat.div_eq_of_lt hsmall
    refine ⟨remaining, 1, 0, ?_, le_refl 1, by omega, le_refl _,
      fun h => absurd h (Nat.not_le.mpr hsmall), fun _ => ⟨rfl, rfl, rfl⟩⟩
    simp only [partition, hdiv, if_pos]
    exact partition_loop_eq 1 (le_refl 1) remaining 0 resume_offset
  · have hq1 : 1 ≤ remaining / workers :=
      (Nat.one_le_div_iff (by omega)).mpr hbig
    have hmod : remaining % workers < workers := Nat.mod_lt _ (by omega)
    refine ⟨workers, remaining / workers, remaining % workers, ?_, hq1, ?_,
      hbig, fun _ => ⟨rfl, rfl, rfl⟩,
      fun h => absurd hbig (Nat.not_le.mpr h)⟩
    · simp only [partition]
      rw [if_neg (by omega)]
      exact partition_loop_eq _ hq1 workers _ resume_offset
    · have := Nat.div_add_mod remaining workers
      have hmin : min workers (remaining % workers) = remaining % workers := by
        omega
      rw [hmin]
      omega

/-- C3: Partition correctness.  For `worker_count ≥ 1` and `remaining ≥ 1`,
the ranges produced by the partitioning loop are contiguous with strictly
increasing starts, each non-empty, pairwise disjoint, and their union is
exactly `[resume_offset, resume_offset + remaining)`; when
`workers ≤ remaining`, worker `i` gets `remaining / workers` elements plus
one extra exactly for `i < remaining % workers`; when
`remaining < workers`, exactly `remaining` workers are produced with one
element each; and the number of workers never exceeds `remaining`. -/
theorem partition_correct (remaining workers resume_offset : Nat)
    (P : List (Nat × Nat))
    (hP : P = partition remaining workers resume_offset)
    (hw : 1 ≤ workers) (hr : 1 ≤ remaining) :
    (∀ i (hi : i < P.length) (hi1 : i + 1 < P.length),
        (P.get ⟨i + 1, hi1⟩).1 = (P.get ⟨i, hi⟩).1 + (P.get ⟨i, hi⟩).2 ∧
        (P.get ⟨i, hi⟩).1 < (P.get ⟨i + 1, hi1⟩).1) ∧
    (∀ pr ∈ P, 0 < pr.2) ∧
    (∀ i j (hi : i < P.length) (hj : j < P.length), i ≠ j → ∀ x : Nat,
        ¬((P.get ⟨i, hi⟩).1 ≤ x ∧
          x < (P.get ⟨i, hi⟩).1 + (P.get ⟨i, hi⟩).2 ∧
          (P.get ⟨j, hj⟩).1 ≤ x ∧
          x < (P.get ⟨j, hj⟩).1 + (P.get ⟨j, hj⟩).2)) ∧
    (∀ x : Nat, (∃ pr ∈ P, pr.1 ≤ x ∧ x < pr.1 + pr.2) ↔
        resume_offset ≤ x ∧ x < resume_offset + remaining) ∧
    (workers ≤ remaining → P.length = workers ∧
        ∀ i (hi : i < P.length),
          (P.get ⟨i, hi⟩).2 = remaining / workers +
            (if i < remaining % workers then 1 else 0)) ∧
    (remaining < workers → P.length = remaining ∧ ∀ pr ∈ P, pr.2 = 1) ∧
    P.length ≤ remaining := by
  have hchain : chained resume_offset P := by
    rw [hP]
    simp only [partition]
    by_cases h : remaining / workers = 0
    · rw [if_pos h]
      exact partition_loop_chained 1 remaining 0 resume_offset
    · rw [if_neg h]
      exact partition_loop_chained _ _ _ _
  obtain ⟨N, p, rr, hPeq, hp1, hsum, hN, hbigcase, hsmallcase⟩ :=
    partition_char remaining workers resume_offset hw hr
  rw [← hP] at hPeq
  have hlen : P.length = N := by simp [hPeq]
  have hget : ∀ i (hi : i < P.length),
      P.get ⟨i, hi⟩ = (resume_offset + i * p + min i rr,
                       p + if i < rr then 1 else 0) := by
    intro i hi
    have hi' : i < ((List.range N).map
        (fun i => (resume_offset + i * p + min i rr,
                   p + if i < rr then 1 else 0))).length := by
      rw [← hPeq]; exact hi
    calc P.get ⟨i, hi⟩
        = ((List.range N).map
            (fun i => (resume_offset + i * p + min i rr,
                       p + if i < rr then 1 else 0))).get ⟨i, hi'⟩ := by
          apply List.get_of_eq hPeq
      _ = _ := get_range_map _ N i hi'
  have hsumP : (P.map Prod.snd).sum = remaining := by
    rw [hPeq, List.map_map]
    have hcomp : (Prod.snd ∘ fun i : Nat =>
        (resume_offset + i * p + min i rr,
         p + if i < rr then 1 else 0))
        = fun i => p + if i < rr then 1 else 0 := rfl
    rw [hcomp, sum_counts p rr N]
    exact hsum
  have hpos : ∀ i (hi : i < P.length), 0 < (P.get ⟨i, hi⟩).2 := by
    intro i hi
    rw [hget i hi]
    by_cases h : i < rr <;> simp [h] <;> omega
  refine ⟨?_, ?_, ?_, ?_, ?_, ?_, ?_⟩
  · intro i hi hi1
    have hstep := chained_step P resume_offset hchain i hi hi1
    exact ⟨hstep, by have := hpos i hi; omega⟩
  · intro pr hpr
    obtain ⟨i, heq⟩ := List.mem_iff_get.mp hpr
    have := hpos i.1 i.2
    rw [show (⟨i.1, i.2⟩ : Fin P.length) = i from rfl] at this
    exact heq ▸ this
  · intro i j hi hj hne x hx
    rcases Nat.lt_or_ge i j with h | h
    · have := chained_separated P resume_offset hchain i j hi hj h
      omega
    · have hlt : j < i := by omega
      have := chained_separated P resume_offset hchain j i hj hi hlt
      omega
  · intro x
    rw [chained_cover P resume_offset hchain x, hsumP]
  · intro hbig
    obtain ⟨hNw, hpq, hrrm⟩ := hbigcase hbig
    refine ⟨by rw [hlen, hNw], ?_⟩
    intro i hi
    rw [hget i hi, hpq, hrrm]
  · intro hsmall
    obtain ⟨hNr, hp1', hrr0⟩ := hsmallcase hsmall
    refine ⟨by rw [hlen, hNr], ?_⟩
    intro pr hpr
    obtain ⟨i, heq⟩ := List.mem_iff_get.mp hpr
    have := hget i.1 i.2
    rw [show (⟨i.1, i.2⟩ : Fin P.length) = i from rfl] at this
    rw [← heq, this, hp1', hrr0]
    simp
  · rw [hlen]; exact hN

/-- Witness for C3 at `remaining = 5`, `workers = 2`,
`resume_offset = 10`. -/
theorem partition_correct_witness :
    (∃ pr ∈ partition 5 2 10, pr.1 ≤ 12 ∧ 12 < pr.1 + pr.2) ∧
    (partition 5 2 10).length ≤ 5 := by
  have h := partition_correct 5 2 10 (partition 5 2 10) rfl
    (by decide) (by decide)
  exact ⟨(h.2.2.2.1 12).mpr (by omega), h.2.2.2.2.2.2⟩

/-! ### The `v2` pre-spawn pipeline (`combo_gen_fixed.rs`) -/

/-- `FPhase` abstracts the control flow of `main` in `combo_gen_fixed.rs` up
to worker spawning.  All early exits (`lengthError`, `charsetError`,
`overflowError`, `nothingToDo`, `resumeNothing`) are plain `return`s from
`main` after an `eprintln!`/`println!` — the process then terminates with
exit status 0 — and all of them happen before the output file is created and
before any worker is spawned.  `run ranges sinkOpen` records the partitioned
ranges handed to spawned workers and whether the output file was created
(`File::create` runs unless `--memory` or `--dry-run` is set). -/
inductive FPhase where
  | lengthError : FPhase
  | charsetError : FPhase
  | overflowError : FPhase
  | nothingToDo : FPhase
  | resumeNothing : FPhase
  | run : List (Nat × Nat) → Bool → FPhase
  deriving DecidableEq, Repr

/-- The pre-spawn pipeline of `main` in `combo_gen_fixed.rs` (lines 66-200),
in source order: `length == 0` check, empty-charset check, `threads == 0`
adjustment, `pow_u64` overflow check, `effective_total == 0` check,
resume-index check (`start_index >= effective_total`), then partitioning and
output-writer creation (skipped in memory-only and dry-run modes). -/
def fixed_setup (charset : List Nat) (length : Nat) (limit : Option Nat)
    (threads0 : Nat) (resumeIdx : Nat) (memoryOnly dryRun : Bool) : FPhase :=
  if length = 0 then .lengthError
  else if charset.length = 0 then .charsetError
  else
    let threads := if threads0 = 0 then 1 else threads0
    match pow_u64 charset.length length with
    | none => .overflowError
    | some total =>
        let effective_total :=
          match limit with
          | none => total
          | some l => min l total
        if effective_total = 0 then .nothingToDo
        else if effective_total ≤ resumeIdx then .resumeNothing
        else
          let remaining := effective_total - resumeIdx
          .run (partition remaining threads resumeIdx)
            (!(memoryOnly || dryRun))

/-- C6: Nothing-to-do edge case.  With `--limit 0` (so the effective total is
zero) both `combo_gen`'s `main` and `combo_gen_fixed`'s `main` return through
their nothing-to-do branch: before the output file is created, before any
worker is spawned, with success exit status (an early `return` from `main`).
The overflow hypothesis mirrors the fact that the `pow_u64` check runs
first. -/
theorem nothing_to_do (charset : List Nat) (length threads0 resumeIdx : Nat)
    (memoryOnly dryRun : Bool) (hc : 2 ≤ charset.length)
    (hlen : 1 ≤ length) (hfit : charset.length ^ length ≤ U64_MAX) :
    main_setup charset length (some 0) threads0 = Phase.nothingToDo ∧
    fixed_setup charset length (some 0) threads0 resumeIdx memoryOnly dryRun =
      FPhase.nothingToDo := by
  have hpow : pow_u64 charset.length length = some (charset.length ^ length) :=
    (pow_u64_spec charset.length length (by omega)).1 hfit
  constructor
  · simp only [main_setup]
    rw [if_neg (by omega)]
    rw [hpow]
  · simp only [fixed_setup]
    rw [if_neg (by omega), if_neg (by omega)]
    rw [hpow]
    simp

/-- Witness for C6 with the charset `[97, 98]`, `length = 5`. -/
theorem nothing_to_do_witness :
    main_setup [97, 98] 5 (some 0) 4 = Phase.nothingToDo ∧
    fixed_setup [97, 98] 5 (some 0) 4 0 false false = FPhase.nothingToDo :=
  nothing_to_do [97, 98] 5 4 0 false false (by decide) (by decide) (by decide)

/-- C8 counterexample: in the `combo_gen_fixed.rs` variant, a one-byte
charset (fewer than 2 bytes) is not rejected at all — the run proceeds to
spawn a worker over the single combination — refuting the claim that every
charset of fewer than 2 bytes aborts the run with a non-zero exit status. -/
theorem charset_check_counterexample :
    List.length [97] < 2 ∧
    fixed_setup [97] 2 none 4 0 false false = FPhase.run [(0, 1)] true := by
  constructor
  · decide
  · rfl

/-- C8 (amended): in the `combo_gen` variant any charset of fewer than 2
bytes hits the `panic!` before any worker is spawned (non-zero exit); in the
`combo_gen_fixed.rs` variant only the empty charset is rejected — by an early
`return` (exit status 0) before any worker is spawned — while a one-byte
charset is accepted. -/
theorem charset_check_amended (charset : List Nat) (length threads0 : Nat)
    (limit : Option Nat) (resumeIdx : Nat) (memoryOnly dryRun : Bool)
    (hlt : charset.length < 2) (hlen : 1 ≤ length) :
    main_setup charset length limit threads0 = Phase.configPanic ∧
    (charset = [] →
      fixed_setup charset length limit threads0 resumeIdx memoryOnly dryRun =
        FPhase.charsetError) := by
  constructor
  · simp only [main_setup]
    rw [if_pos hlt]
  · intro hempty
    subst hempty
    simp only [fixed_setup]
    rw [if_neg (by omega)]
    simp

/-- Witness for C8's amended statement with the empty charset. -/
theorem charset_check_amended_witness :
    main_setup [] 3 none 4 = Phase.configPanic ∧
    fixed_setup [] 3 none 4 0 false false = FPhase.charsetError :=
  ⟨(charset_check_amended [] 3 4 none 0 false false (by decide) (by decide)).1,
   (charset_check_amended [] 3 4 none 0 false false (by decide) (by decide)).2
     rfl⟩

/-! ### Checkpoint (resume counter) accounting -/

/-- The run modes of the `v2` worker bodies: normal streaming, memory-only
collection (`--memory`), and dry run (`--dry-run`). -/
inductive UMode where
  | normal : UMode
  | memory : UMode
  | dryRun : UMode
  deriving DecidableEq, Repr

/-- `PROGRESS_BATCH` from `combo_gen_ultra.rs` (line 250). -/
def PROGRESS_BATCH : Nat := 50000

/-- The per-iteration progress/resume accounting of a `combo_gen_ultra.rs`
worker in its memory and normal branches (lines 277-288 and 298-318): each
iteration does `progress_acc += 1` and, when `progress_acc` reaches
`PROGRESS_BATCH`, adds it to the shared resume counter and resets it.
Arguments: iterations left, `progress_acc`, resume counter; result: final
`(progress_acc, resume counter)`. -/
def progress_loop : Nat → Nat → Nat → Nat × Nat
  | 0, acc, res => (acc, res)
  | k + 1, acc, res =>
      let acc' := acc + 1
      if PROGRESS_BATCH ≤ acc' then progress_loop k 0 (res + acc')
      else progress_loop k acc' res

/-- Total amount a single `combo_gen_ultra.rs` worker with `count` elements
adds to the shared resume counter (starting value `res`): the memory and
normal branches run `progress_loop`; the dry-run branch (lines 291-296) never
touches `progress_acc` or the resume counter; afterwards the common
`if progress_acc > 0` flush (lines 328-331) runs. -/
def ultra_worker_resume (count : Nat) (mode : UMode) (res : Nat) : Nat :=
  let s : Nat × Nat :=
    match mode with
    | .memory => progress_loop count 0 res
    | .dryRun => (0, res)
    | .normal => progress_loop count 0 res
  if 0 < s.1 then s.2 + s.1 else s.2

/-- Final value of the ultra variant's resume counter: it starts at
`start_index` (`AtomicU64::new(start_index)`, line 218), every worker adds
its contribution, and the joined value is persisted to the resume file
(lines 345-348). -/
def ultra_final_checkpoint (start : Nat) (counts : List Nat)
    (mode : UMode) : Nat :=
  counts.foldl (fun res c => ultra_worker_resume c mode res) start

/-- The per-iteration resume accounting of a `combo_gen_fixed.rs` worker
(line 244): `resume_counter.fetch_add(1)` on every iteration, in every
mode. -/
def fixed_resume_loop : Nat → Nat → Nat
  | 0, res => res
  | k + 1, res => fixed_resume_loop k (res + 1)

/-- Final value of the fixed variant's resume counter (starts at
`start_index`, line 161; persisted after join, lines 288-295). -/
def fixed_final_checkpoint (start : Nat) (counts : List Nat) : Nat :=
  counts.foldl (fun res c => fixed_resume_loop c res) start

/-- The shared produced counter: every worker adds its `local_count`, which
is incremented once per iteration in every mode of every variant. -/
def produced_total (counts : List Nat) : Nat :=
  counts.foldl (fun acc c => acc + c) 0

theorem progress_loop_total : ∀ (k acc res : Nat),
    (progress_loop k acc res).2 + (progress_loop k acc res).1 =
      res + acc + k := by
  intro k
  induction k with
  | zero => intro acc res; simp [progress_loop]
  | succ n ih =>
      intro acc res
      simp only [progress_loop]
      by_cases h : PROGRESS_BATCH ≤ acc + 1
      · rw [if_pos h]
        have := ih 0 (res + (acc + 1))
        omega
      · rw [if_neg h]
        have := ih (acc + 1) res
        omega

theorem ultra_worker_resume_normal (count res : Nat) :
    ultra_worker_resume count UMode.normal res = res + count := by
  simp only [ultra_worker_resume]
  have := progress_loop_total count 0 res
  by_cases h : 0 < (progress_loop count 0 res).1 <;> simp [h] <;> omega

theorem ultra_worker_resume_memory (count res : Nat) :
    ultra_worker_resume count UMode.memory res = res + count := by
  simp only [ultra_worker_resume]
  have := progress_loop_total count 0 res
  by_cases h : 0 < (progress_loop count 0 res).1 <;> simp [h] <;> omega

theorem ultra_worker_resume_dry (count res : Nat) :
    ultra_worker_resume count UMode.dryRun res = res := by
  simp [ultra_worker_resume]

theorem fixed_resume_loop_eq : ∀ (k res : Nat),
    fixed_resume_loop k res = res + k := by
  intro k
  induction k with
  | zero => intro res; simp [fixed_resume_loop]
  | succ n ih => intro res; simp only [fixed_resume_loop]; rw [ih]; omega

theorem produced_total_eq_sum : ∀ (counts : List Nat) (a : Nat),
    counts.foldl (fun acc c => acc + c) a = a + counts.sum := by
  intro counts
  induction counts with
  | nil => intro a; simp
  | cons c cs ih => intro a; simp only [List.foldl, List.sum_cons]; rw [ih]; omega

/-- C7 counterexample: in the ultra variant's dry-run mode (one worker,
4 combinations, resume offset 0) the persisted checkpoint is `0`, not the
resume offset plus the produced count (`4`) — refuting the claim that the
end-of-run checkpoint equals offset + produced in every run mode. -/
theorem checkpoint_dry_run_counterexample :
    ultra_final_checkpoint 0 [4] UMode.dryRun = 0 ∧
    produced_total [4] = 4 ∧
    ultra_final_checkpoint 0 [4] UMode.dryRun ≠ 0 + produced_total [4] := by
  refine ⟨rfl, rfl, ?_⟩
  decide

/-- C7 (amended): after all workers join, the persisted checkpoint equals the
resume offset plus the total produced count in the fixed variant (all modes)
and in the ultra variant's normal and memory-only modes; in the ultra
variant's dry-run mode the workers never update the resume counter, so the
persisted value is the unchanged resume offset.  For a completed run the
produced count is the sum of the partitioned range sizes, i.e.
`remaining = effective_total - resume_offset`. -/
theorem checkpoint_final_value (start : Nat) (counts : List Nat)
    (remaining workers : Nat) (hw : 1 ≤ workers) (hr : 1 ≤ remaining) :
    fixed_final_checkpoint start counts = start + produced_total counts ∧
    ultra_final_checkpoint start counts UMode.normal =
      start + produced_total counts ∧
    ultra_final_checkpoint start counts UMode.memory =
      start + produced_total counts ∧
    ultra_final_checkpoint start counts UMode.dryRun = start ∧
    produced_total ((partition remaining workers start).map Prod.snd) =
      remaining := by
  have hsum : ∀ (cs : List Nat) (a : Nat),
      cs.foldl (fun res c => fixed_resume_loop c res) a = a + cs.sum := by
    intro cs
    induction cs with
    | nil => intro a; simp
    | cons c cs ih =>
        intro a
        simp only [List.foldl, List.sum_cons]
        rw [fixed_resume_loop_eq, ih]
        omega
  have hnorm : ∀ (cs : List Nat) (a : Nat),
      cs.foldl (fun res c => ultra_worker_resume c UMode.normal res) a =
        a + cs.sum := by
    intro cs
    induction cs with
    | nil => intro a; simp
    | cons c cs ih =>
        intro a
        simp only [List.foldl, List.sum_cons]
        rw [ultra_worker_resume_normal, ih]
        omega
  have hmem : ∀ (cs : List Nat) (a : Nat),
      cs.foldl (fun res c => ultra_worker_resume c UMode.memory res) a =
        a + cs.sum := by
    intro cs
    induction cs with
    | nil => intro a; simp
    | cons c cs ih =>
        intro a
        simp only [List.foldl, List.sum_cons]
        rw [ultra_worker_resume_memory, ih]
        omega
  have hdry : ∀ (cs : List Nat) (a : Nat),
      cs.foldl (fun res c => ultra_worker_resume c UMode.dryRun res) a = a := by
    intro cs
    induction cs with
    | nil => intro a; simp
    | cons c cs ih =>
        intro a
        simp only [List.foldl]
        rw [ultra_worker_resume_dry, ih]
  have hpart : ((partition remaining workers start).map Prod.snd).sum =
      remaining := by
    obtain ⟨N, p, rr, hPeq, hp1, hsumc, _, _, _⟩ :=
      partition_char remaining workers start hw hr
    rw [hPeq, List.map_map]
    have hcomp : (Prod.snd ∘ fun i : Nat =>
        (start + i * p + min i rr, p + if i < rr then 1 else 0))
        = fun i => p + if i < rr then 1 else 0 := rfl
    rw [hcomp, sum_counts p rr N]
    exact hsumc
  refine ⟨?_, ?_, ?_, ?_, ?_⟩
  · rw [fixed_final_checkpoint, hsum, produced_total, produced_total_eq_sum]
    omega
  · rw [ultra_final_checkpoint, hnorm, produced_total, produced_total_eq_sum]
    omega
  · rw [ultra_final_checkpoint, hmem, produced_total, produced_total_eq_sum]
    omega
  · rw [ultra_final_checkpoint, hdry]
  · rw [produced_total, produced_total_eq_sum, hpart]
    omega

/-- Witness for C7's amended statement at `start = 3`, `counts = [2, 5]`,
`remaining = 7`, `workers = 2`. -/
theorem checkpoint_final_value_witness :
    fixed_final_checkpoint 3 [2, 5] = 3 + produced_total [2, 5] ∧
    ultra_final_checkpoint 3 [2, 5] UMode.normal =
      3 + produced_total [2, 5] ∧
    ultra_final_checkpoint 3 [2, 5] UMode.memory =
      3 + produced_total [2, 5] ∧
    ultra_final_checkpoint 3 [2, 5] UMode.dryRun = 3 ∧
    produced_total ((partition 7 2 3).map Prod.snd) = 7 :=
  checkpoint_final_value 3 [2, 5] 7 2 (by decide) (by decide)

/-! ### Worker output bytes -/

/-- The rendering of one digit vector inside the worker loop of `main.rs`
(lines 205-210) and `combo_gen_fixed.rs` (lines 219-229): one charset lookup
per digit in digit order, then a single line-feed byte (`10`). -/
def render (charset : List Nat) (digits : List Nat) : List Nat :=
  digits.map (fun d => charset.getD d 0) ++ [10]

/-- The worker loop of `main.rs` (lines 205-229): per iteration, append the
rendered combination to the local buffer, flush the buffer to the sink when
it reaches `32 * 1024` bytes, then advance the odometer.  Arguments:
iterations left, digit vector, local buffer, sink contents; result: final
`(local buffer, sink contents)`. -/
def worker_loop (charset : List Nat) (base : Nat) :
    Nat → List Nat → List Nat → List Nat → List Nat × List Nat
  | 0, _, buf, sink => (buf, sink)
  | k + 1, digits, buf, sink =>
      let buf' := buf ++ render charset digits
      if 32 * 1024 ≤ buf'.length then
        worker_loop charset base k (odometer_increment digits base).1 []
          (sink ++ buf')
      else
        worker_loop charset base k (odometer_increment digits base).1 buf' sink

/-- The total byte sequence a worker passes to the sink: run the loop from
`index_to_digits s` for `count` iterations starting with empty buffer and
sink, then do the final flush of a non-empty leftover buffer (`main.rs`
lines 232-236). -/
def worker_sink_bytes (charset : List Nat) (base s count len : Nat) :
    List Nat :=
  let r := worker_loop charset base count (index_to_digits s base len) [] []
  if r.1 = [] then r.2 else r.2 ++ r.1

/-- The renders emitted by `k` loop iterations, as one flat byte list. -/
def renders_from (charset : List Nat) (base : Nat) :
    Nat → List Nat → List Nat
  | 0, _ => []
  | k + 1, digits =>
      render charset digits ++
        renders_from charset base k (odometer_increment digits base).1

/-- The spec-side description of a worker's output: the concatenation, for
`i = s, s+1, ..., s+count-1` in increasing order, of the rendered
combination of `index_to_digits i`. -/
def spec_output (charset : List Nat) (base s count len : Nat) : List Nat :=
  ((List.range count).map
    (fun j => render charset (index_to_digits (s + j) base len))).flatten

theorem renders_from_eq (charset : List Nat) (base len : Nat)
    (hb : 2 ≤ base) (hb32 : base < U32_MOD) :
    ∀ count s, s + count ≤ base ^ len →
      renders_from charset base count (index_to_digits s base len) =
        ((List.range count).map
          (fun j => render charset (index_to_digits (s + j) base len))).flatten := by
  intro count
  induction count with
  | zero => intro s h; simp [renders_from]
  | succ k ih =>
      intro s h
      rw [List.range_succ_eq_map, List.map_cons, List.map_map]
      simp only [renders_from]
      cases k with
      | zero => simp [renders_from]
      | succ m =>
          have hstep := (odometer_increment_step base hb hb32 len).1 s
            (by omega)
          rw [hstep]
          rw [ih (s + 1) (by omega)]
          simp only [List.flatten_cons, Nat.add_zero]
          congr 1
          apply congrArg List.flatten
          apply List.map_congr_left
          intro j _
          simp only [Function.comp]
          have : s + 1 + j = s + (j + 1) := by omega
          rw [this]

theorem worker_loop_bytes (charset : List Nat) (base : Nat) :
    ∀ (k : Nat) (digits buf sink : List Nat),
      (worker_loop charset base k digits buf sink).2 ++
        (worker_loop charset base k digits buf sink).1 =
      sink ++ buf ++ renders_from charset base k digits := by
  intro k
  induction k with
  | zero => intro digits buf sink; simp [worker_loop, renders_from]
  | succ n ih =>
      intro digits buf sink
      simp only [worker_loop, renders_from]
      by_cases h : 32 * 1024 ≤ (buf ++ render charset digits).length
      · rw [if_pos h, ih]
        simp
      · rw [if_neg h, ih]
        simp

/-- C5: Worker output content and order.  For a worker owning
`[s, s + count)` with `s + count` within the combination space, the total
byte sequence it passes to the sink across all its flushes is exactly the
concatenation, in increasing index order, of the rendered combinations
(charset byte per digit in digit order, then one line-feed byte). -/
theorem worker_output (charset : List Nat) (s count len : Nat)
    (hb : 2 ≤ charset.length) (hb32 : charset.length < U32_MOD)
    (hrange : s + count ≤ charset.length ^ len) :
    worker_sink_bytes charset charset.length s count len =
      spec_output charset charset.length s count len := by
  have h1 := worker_loop_bytes charset charset.length count
    (index_to_digits s charset.length len) [] []
  have h2 := renders_from_eq charset charset.length len hb hb32 count s hrange
  have key : worker_sink_bytes charset charset.length s count len =
      (worker_loop charset charset.length count
        (index_to_digits s charset.length len) [] []).2 ++
      (worker_loop charset charset.length count
        (index_to_digits s charset.length len) [] []).1 := by
    simp only [worker_sink_bytes]
    by_cases h : (worker_loop charset charset.length count
        (index_to_digits s charset.length len) [] []).1 = []
    · rw [if_pos h, h, List.append_nil]
    · rw [if_neg h]
  rw [key, h1, h2]
  simp [spec_output]

/-- Witness for C5: charset `"ab"` (`[97, 98]`), `len = 2`, range `[0, 4)` —
the full scenario `["aa","ab","ba","bb"]`. -/
theorem worker_output_witness :
    worker_sink_bytes [97, 98] (List.length [97, 98]) 0 4 2 =
      spec_output [97, 98] (List.length [97, 98]) 0 4 2 :=
  worker_output [97, 98] 0 4 2 (by decide) (by decide) (by decide)

/-! ### Unrolled rendering (`generate_combo_fast`) -/

/-- `generate_combo_fast` (`combo_gen_ultra.rs` lines 56-125): Rust matches
on `digits.len()` with unrolled cases for lengths 1 through 8 and a generic
fallback loop; the list patterns below correspond one-to-one to those
length cases (`_` covers length 0 and lengths ≥ 9). -/
def generate_combo_fast (digits charset : List Nat) (out : List Nat) :
    List Nat :=
  match digits with
  | [d0] => out ++ [charset.getD d0 0, 10]
  | [d0, d1] => out ++ [charset.getD d0 0, charset.getD d1 0, 10]
  | [d0, d1, d2] =>
      out ++ [charset.getD d0 0, charset.getD d1 0, charset.getD d2 0, 10]
  | [d0, d1, d2, d3] =>
      out ++ [charset.getD d0 0, charset.getD d1 0, charset.getD d2 0,
              charset.getD d3 0, 10]
  | [d0, d1, d2, d3, d4] =>
      out ++ [charset.getD d0 0, charset.getD d1 0, charset.getD d2 0,
              charset.getD d3 0, charset.getD d4 0, 10]
  | [d0, d1, d2, d3, d4, d5] =>
      out ++ [charset.getD d0 0, charset.getD d1 0, charset.getD d2 0,
              charset.getD d3 0, charset.getD d4 0, charset.getD d5 0, 10]
  | [d0, d1, d2, d3, d4, d5, d6] =>
      out ++ [charset.getD d0 0, charset.getD d1 0, charset.getD d2 0,
              charset.getD d3 0, charset.getD d4 0, charset.getD d5 0,
              charset.getD d6 0, 10]
  | [d0, d1, d2, d3, d4, d5, d6, d7] =>
      out ++ [charset.getD d0 0, charset.getD d1 0, charset.getD d2 0,
              charset.getD d3 0, charset.getD d4 0, charset.getD d5 0,
              charset.getD d6 0, charset.getD d7 0, 10]
  | ds => out ++ ds.map (fun d => charset.getD d 0) ++ [10]

/-- C9: Unrolled rendering equivalence.  For every digit vector whose digits
are all below the charset length, `generate_combo_fast` appends to `out`
exactly the bytes of the uniform reference loop (`render`): charset byte per
digit in digit order, then one line-feed byte; in particular the per-length
unrolled cases agree with the generic fallback. -/
theorem generate_combo_fast_eq (digits charset out : List Nat)
    (h : ∀ d ∈ digits, d < charset.length) :
    generate_combo_fast digits charset out = out ++ render charset digits := by
  match digits with
  | [] => simp [generate_combo_fast, render]
  | [d0] => simp [generate_combo_fast, render]
  | [d0, d1] => simp [generate_combo_fast, render]
  | [d0, d1, d2] => simp [generate_combo_fast, render]
  | [d0, d1, d2, d3] => simp [generate_combo_fast, render]
  | [d0, d1, d2, d3, d4] => simp [generate_combo_fast, render]
  | [d0, d1, d2, d3, d4, d5] => simp [generate_combo_fast, render]
  | [d0, d1, d2, d3, d4, d5, d6] => simp [generate_combo_fast, render]
  | [d0, d1, d2, d3, d4, d5, d6, d7] => simp [generate_combo_fast, render]
  | d0 :: d1 :: d2 :: d3 :: d4 :: d5 :: d6 :: d7 :: d8 :: rest =>
      simp [generate_combo_fast, render]

/-- Witness for C9 with `digits = [1, 0]`, charset `[97, 98]`,
`out = [5]`. -/
theorem generate_combo_fast_eq_witness :
    generate_combo_fast [1, 0] [97, 98] [5] =
      [5] ++ render [97, 98] [1, 0] :=
  generate_combo_fast_eq [1, 0] [97, 98] [5] (by decide)

end ComboGen
